import Mathlib

/-!
Verification of the tree component (a terminal tree-view widget): shallow
embedding of its node model, traversal engine (`flatten`, `at`,
`countNodesBelow`), branch-symbol renderer (`hasPaddingAtPos`,
`getTreeSymbolForPos`), and the cursor/selection state machine (`New`,
`MoveUp`, `MoveDown`, `ToggleExpand`, `Focus`, `Blur`, `Update`).

Node states are the source's bitmask: Selected = 2, Collapsible = 4,
Collapsed = 8, Hidden = 16, LastChild = 32, HasPreviousSibling = 64.
Go `int` is embedded as `Int`; node state bitmasks as `Nat`.
-/

/-- A tree node as the traversal engine sees it: a state bitmask plus the
ordered children sequence (the source's `Node` capability interface,
specialised to the data the core reads: `State()` and `Children()`). -/
inductive GNode : Type where
  | mk : Nat → List GNode → GNode
deriving Repr

def GNode.state : GNode → Nat
  | .mk s _ => s

def GNode.children : GNode → List GNode
  | .mk _ cs => cs

/-- Embeds `NodeState.Is`: `s&st == st`. -/
def stateIs (s st : Nat) : Bool := s &&& st == st

/-- Embeds `isHidden`. -/
def isHidden (n : GNode) : Bool := stateIs n.state 16

/-- Embeds `isExpanded`: `!n.State().Is(NodeCollapsed)`. -/
def isExpanded (n : GNode) : Bool := !(stateIs n.state 8)

/-- Embeds `isCollapsible`. -/
def isCollapsible (n : GNode) : Bool := stateIs n.state 4

/-- Embeds `isSelected`. -/
def isSelected (n : GNode) : Bool := stateIs n.state 2

/-- Embeds `hasChildren`: `len(n.Children()) > 0`. -/
def hasChildren (n : GNode) : Bool := n.children.length > 0

mutual
/-- The contribution of a single node to `flatten`: nothing when hidden,
otherwise the node followed by its flattened children when it is
collapsible and expanded. `flatten` below is the source's loop, expressed
as the concatenation of these per-element contributions. -/
def flattenOne : GNode → List GNode
  | .mk s cs =>
    if isHidden (.mk s cs) then []
    else
      (GNode.mk s cs) ::
        (if isCollapsible (.mk s cs) && isExpanded (.mk s cs) then flatten cs else [])
/-- Embeds `Nodes.flatten`: every non-hidden node in depth-first,
children-after-parent order, descending only into nodes that are both
collapsible and expanded. -/
def flatten : List GNode → List GNode
  | [] => []
  | n :: rest => flattenOne n ++ flatten rest
end

mutual
/-- Embeds `countNodesBelow`: `count := 0; for child { count += countNodesBelow(child) }`.
(Note the source never adds the children themselves to the count.) -/
def countNodesBelow : GNode → Int
  | .mk _ cs => cnbList cs
/-- The loop sum of `countNodesBelow` over a children list. -/
def cnbList : List GNode → Int
  | [] => 0
  | c :: rest => countNodesBelow c + cnbList rest
end

mutual
/-- The descent of `Nodes.at` into an expanded node's subtree:
`n.Children().at(i - j - 1)` — the recursive call starts its own counter
at 0. -/
def atDescend : GNode → Int → Option GNode
  | .mk _ cs, i => atAux cs i 0
/-- Embeds the loop of `Nodes.at` with its running counter `j`:
skip hidden nodes, return the node when `j == i`, descend into expanded
nodes' children at relative index `i - j - 1`, and on a miss advance `j`
by `countNodesBelow(n)` plus one. -/
def atAux : List GNode → Int → Int → Option GNode
  | [], _, _ => none
  | .mk s cs :: rest, i, j =>
    if isHidden (.mk s cs) then atAux rest i j
    else if j == i then some (.mk s cs)
    else if isExpanded (.mk s cs) then
      match atDescend (.mk s cs) (i - j - 1) with
      | some nn => some nn
      | none => atAux rest i (j + countNodesBelow (.mk s cs) + 1)
    else atAux rest i (j + 1)
end

/-- Embeds `Nodes.at` (`at` is a reserved word in Lean): the optimized
indexed lookup, starting its counter at 0. -/
def atIndex (ns : List GNode) (i : Int) : Option GNode := atAux ns i 0

mutual
/-- Total number of nodes in a single subtree, every node counted whatever
its flags (the measure the corrected bound for `at` is stated against). -/
def totalCountF : GNode → Nat
  | .mk _ cs => 1 + totalCountL cs
/-- Total number of nodes in a forest. -/
def totalCountL : List GNode → Nat
  | [] => 0
  | n :: rest => totalCountF n + totalCountL rest
end

/-! ### Paths into a forest

Go nodes are shared mutable objects; a node's identity is its position in
the provider's tree. We represent identities as paths: `k :: p` addresses
the `p`-descendant of the `k`-th root. -/

mutual
/-- Node lookup: descend from a node along a (relative) path. -/
def getNode : GNode → List Nat → Option GNode
  | n, [] => some n
  | .mk _ cs, k :: p => getList cs k p
/-- Node lookup in a children list: pick index `k`, then descend along `p`. -/
def getList : List GNode → Nat → List Nat → Option GNode
  | [], _, _ => none
  | c :: _, 0, p => getNode c p
  | _ :: rest, k + 1, p => getList rest k p
end

/-- Node lookup in a forest by absolute path (the empty path addresses no
node). -/
def getForest (ns : List GNode) (p : List Nat) : Option GNode :=
  match p with
  | [] => none
  | k :: q => getList ns k q

mutual
/-- Apply `f` to the node at a relative path inside a subtree, embedding a
`SetState`-style in-place update of one shared node. -/
def modifyTree (f : GNode → GNode) : List Nat → GNode → GNode
  | [], n => f n
  | k :: p, .mk s cs => .mk s (modifyList f k p cs)
/-- Apply `f` to the node addressed by index `k` and relative path `p` in a
children list. -/
def modifyList (f : GNode → GNode) : Nat → List Nat → List GNode → List GNode
  | _, _, [] => []
  | 0, p, c :: rest => modifyTree f p c :: rest
  | k + 1, p, c :: rest => c :: modifyList f k p rest
end

/-- Apply `f` to the node at an absolute path in a forest. -/
def modifyForest (f : GNode → GNode) (p : List Nat) (ns : List GNode) : List GNode :=
  match p with
  | [] => ns
  | k :: q => modifyList f k q ns

/-- Shift the leading index of a path by one (re-addressing relative to a
longer list). -/
def shiftP : List Nat → List Nat
  | [] => []
  | j :: q => (j + 1) :: q

mutual
/-- The paths of the nodes `flattenOne` emits, in the same order. -/
def flattenPathsOne : GNode → List (List Nat)
  | .mk s cs =>
    if isHidden (.mk s cs) then []
    else
      [0] ::
        (if isCollapsible (.mk s cs) && isExpanded (.mk s cs) then
          (flattenPaths cs).map (fun p => 0 :: p)
        else [])
/-- The paths of the nodes `flatten` emits, in the same order: the path
companion of `flatten`, used to reason about which tree positions the
visible flat order contains. -/
def flattenPaths : List GNode → List (List Nat)
  | [] => []
  | n :: rest => flattenPathsOne n ++ (flattenPaths rest).map shiftP
end

mutual
/-- Check, along a relative path inside a subtree, that every proper
ancestor of the addressed node is neither hidden nor collapsed, and that
the addressed node itself is not hidden. -/
def visibleChainN : GNode → List Nat → Bool
  | n, [] => !isHidden n
  | .mk s cs, k :: p =>
    !isHidden (.mk s cs) && isExpanded (.mk s cs) && visibleChainL cs k p
/-- `visibleChainN` through a children list. -/
def visibleChainL : List GNode → Nat → List Nat → Bool
  | [], _, _ => false
  | c :: _, 0, p => visibleChainN c p
  | _ :: rest, k + 1, p => visibleChainL rest k p
end

/-- Absolute-path version of `visibleChainN`: the addressed node is not
hidden and none of its proper ancestors is hidden or collapsed. -/
def visibleChain (ns : List GNode) (p : List Nat) : Bool :=
  match p with
  | [] => false
  | k :: q => visibleChainL ns k q

mutual
/-- Check, along a relative path, that the addressed node is not hidden and
every proper ancestor is non-hidden, collapsible and expanded — exactly the
condition under which the node is part of the visible flat order (a node
the cursor can rest on). -/
def reachN : GNode → List Nat → Bool
  | n, [] => !isHidden n
  | .mk s cs, k :: p =>
    !isHidden (.mk s cs) && (isCollapsible (.mk s cs) && isExpanded (.mk s cs)) &&
      reachL cs k p
/-- `reachN` through a children list. -/
def reachL : List GNode → Nat → List Nat → Bool
  | [], _, _ => false
  | c :: _, 0, p => reachN c p
  | _ :: rest, k + 1, p => reachL rest k p
end

/-- Absolute-path version of `reachN`. -/
def cursorReachable (ns : List GNode) (p : List Nat) : Bool :=
  match p with
  | [] => false
  | k :: q => reachL ns k q

/-- Embeds `Model.ToggleExpand`'s effect on a node: only collapsible nodes
are toggled, and the toggle XORs `NodeCollapsed` into the state. -/
def toggleExpand (n : GNode) : GNode :=
  if isCollapsible n then .mk (n.state ^^^ 8) n.children else n

/-- Embeds `isLastNode`. -/
def isLastNode (n : GNode) : Bool := stateIs n.state 32

/-- Embeds `hasPreviousSibling`. -/
def hasPreviousSibling (n : GNode) : Bool := stateIs n.state 64

/-! ### The render pass's state mutation (`Model.renderNodes`) -/

/-- The hint bits `Model.renderNodes` ORs onto the node at index `i` of the
sequence of length `len` it iterates: `HasPreviousSibling` for `i > 0`,
`Collapsible` when the node has children, `LastChild` for the final index. -/
def hintsFor (i len : Nat) (n : GNode) : Nat :=
  (if 0 < i then 64 else 0) |||
    ((if hasChildren n then 4 else 0) ||| (if i == len - 1 then 32 else 0))

/-- The `SetState` effect of `Model.renderNodes` on the node sequence it
receives, element by element: hidden nodes are skipped (`continue`) before
any hint is applied, every other node gets its positional hints ORed onto
its existing state. `i` is the running loop index, `len` the length of the
full sequence. -/
def renderHintsGo (len : Nat) : Nat → List GNode → List GNode
  | _, [] => []
  | i, n :: rest =>
    if isHidden n then n :: renderHintsGo len (i + 1) rest
    else .mk (n.state ||| hintsFor i len n) n.children :: renderHintsGo len (i + 1) rest

/-- `Model.renderNodes`'s state effect on a whole sequence. -/
def renderHintsList (ns : List GNode) : List GNode := renderHintsGo ns.length 0 ns

/-! ### The branch-symbol renderer

The symbol renderer walks parent pointers, so its node view is a state
bitmask plus the ancestor chain. -/

/-- A node as the symbol renderer sees it: state bitmask and parent
back-reference (`none` for a root). -/
inductive PNode : Type where
  | mk : Nat → Option PNode → PNode
deriving Repr

def PNode.state : PNode → Nat
  | .mk s _ => s

def PNode.parent : PNode → Option PNode
  | .mk _ p => p

/-- Embeds `isLastNode` on the renderer's node view. -/
def isLastNodeP (n : PNode) : Bool := stateIs n.state 32

mutual
/-- Embeds `getDepth`: ancestor hops until the parent pointer is nil. -/
def getDepth : PNode → Nat
  | .mk _ p => getDepthO p
/-- `getDepth`'s loop step through the optional parent. -/
def getDepthO : Option PNode → Nat
  | none => 0
  | some p => getDepth p + 1
end

mutual
/-- The ancestor-walk loop of `hasPaddingAtPos`: hop `k` times; if a hop
hits nil return true (padding), otherwise report whether the reached
ancestor is a `LastChild`. -/
def paddingWalk : PNode → Nat → Bool
  | n, 0 => isLastNodeP n
  | .mk _ par, k + 1 => paddingWalkO par k
/-- One hop of `paddingWalk` through the optional parent. -/
def paddingWalkO : Option PNode → Nat → Bool
  | none, _ => true
  | some p, k => paddingWalk p k
end

mutual
/-- The ancestor reached after exactly `k` hops (`none` if the walk runs
off the root); 0 hops reach the node itself. -/
def ancestorAt : PNode → Nat → Option PNode
  | n, 0 => some n
  | .mk _ par, k + 1 => ancestorAtO par k
/-- One hop of `ancestorAt` through the optional parent. -/
def ancestorAtO : Option PNode → Nat → Option PNode
  | none, _ => none
  | some p, k => ancestorAt p k
end

/-- Embeds `hasPaddingAtPos`: nil node or a position beyond `maxDepth` is
padding, the node's own column (`depth == maxDepth`) never is, and
otherwise the column is padding iff walking up `maxDepth - depth` parent
hops runs off the root or reaches a `LastChild` ancestor. (Go's loop with
a non-positive bound runs zero times, hence `Int.toNat`.) -/
def hasPaddingAtPos (n : Option PNode) (depth maxDepth : Int) : Bool :=
  match n with
  | none => true
  | some m =>
    if depth > maxDepth then true
    else if depth == maxDepth then false
    else paddingWalk m (maxDepth - depth).toNat

/-- The four glyph kinds a branch column can show. Modelled from the spec:
the glyph strings (`Padding`, `RenderConnector`, `RenderTerminator`,
`RenderStarter` and the `Symbols` table) live in a source file that is not
present; per the spec (§4.2) they are a swappable configuration table of
glyph strings, orthogonal to the core logic, so glyphs are abstracted to
their kind. -/
inductive Glyph : Type where
  | padding
  | connector
  | terminator
  | starter
deriving DecidableEq, Repr

/-- Embeds `Model.getTreeSymbolForPos` for a non-nil node (Go panics on a
nil node): padding when `hasPaddingAtPos` says so, a connector strictly
below the node's own column, and at the node's own column a terminator for
a `LastChild` and a starter otherwise. -/
def getTreeSymbolForPos (n : PNode) (pos maxDepth : Int) : Glyph :=
  if hasPaddingAtPos (some n) pos maxDepth then .padding
  else if pos < maxDepth then .connector
  else if isLastNodeP n then .terminator
  else .starter

/-! ### The component model (`tree.go`'s `Model`)

Go nodes are shared mutable objects: `Model.nodes` (the flattened slice)
holds references into the provider's tree. We keep the provider's forest
as the store and represent each element of `Model.nodes` by its path. -/

/-- A node annotated with its path, so that the `at` traversal over the
stored flat slice can report which shared node (which tree position) it
found. -/
inductive ANode : Type where
  | mk : List Nat → Nat → List ANode → ANode
deriving Repr

def ANode.path : ANode → List Nat
  | .mk p _ _ => p

def ANode.state : ANode → Nat
  | .mk _ s _ => s

def ANode.children : ANode → List ANode
  | .mk _ _ cs => cs

mutual
/-- Annotate a node (situated at path `p`) and, recursively, its children
with their paths. -/
def annotate : List Nat → GNode → ANode
  | p, .mk s cs => .mk p s (annotateList p 0 cs)
/-- Annotate a children list whose elements sit at `p ++ [i]`, `p ++ [i+1]`, … -/
def annotateList : List Nat → Nat → List GNode → List ANode
  | _, _, [] => []
  | p, i, c :: rest => annotate (p ++ [i]) c :: annotateList p (i + 1) rest
end

def isHiddenA (n : ANode) : Bool := stateIs n.state 16

def isExpandedA (n : ANode) : Bool := !(stateIs n.state 8)

mutual
/-- `countNodesBelow` on annotated nodes (same source function, read
through the annotation). -/
def countNodesBelowA : ANode → Int
  | .mk _ _ cs => cnbListA cs
/-- Children-list sum of `countNodesBelowA`. -/
def cnbListA : List ANode → Int
  | [] => 0
  | c :: rest => countNodesBelowA c + cnbListA rest
end

mutual
/-- `Nodes.at`'s descent, on annotated nodes. -/
def atDescendA : ANode → Int → Option ANode
  | .mk _ _ cs, i => atAuxA cs i 0
/-- `Nodes.at`'s loop, on annotated nodes. -/
def atAuxA : List ANode → Int → Int → Option ANode
  | [], _, _ => none
  | .mk p s cs :: rest, i, j =>
    if isHiddenA (.mk p s cs) then atAuxA rest i j
    else if j == i then some (.mk p s cs)
    else if isExpandedA (.mk p s cs) then
      match atDescendA (.mk p s cs) (i - j - 1) with
      | some nn => some nn
      | none => atAuxA rest i (j + countNodesBelowA (.mk p s cs) + 1)
    else atAuxA rest i (j + 1)
end

/-- `Nodes.at` on annotated nodes. -/
def atIndexA (ns : List ANode) (i : Int) : Option ANode := atAuxA ns i 0

/-- Modelled from the spec: the viewport collaborator (§6) — the core only
sets/gets width, height and scroll offset, replaces single lines, sets the
full content and reads the total line count and the visible line-index
range. Line contents are not tracked (no claim depends on them), only the
line count. -/
structure Viewport where
  width : Int
  height : Int
  yoffset : Int
  lineCount : Nat
deriving DecidableEq, Repr

/-- Modelled from the spec: `TotalLineCount` reports the number of content
lines. -/
def Viewport.totalLineCount (v : Viewport) : Int := (v.lineCount : Int)

/-- Modelled from the spec: the scroll offset is kept within
`[0, lineCount - height]` (never negative). -/
def Viewport.setYOffset (v : Viewport) (n : Int) : Viewport :=
  { v with yoffset := min (max n 0) (max ((v.lineCount : Int) - v.height) 0) }

/-- Modelled from the spec: shift the visible window up by a delta. -/
def Viewport.lineUp (v : Viewport) (d : Int) : Viewport := v.setYOffset (v.yoffset - d)

/-- Modelled from the spec: shift the visible window down by a delta. -/
def Viewport.lineDown (v : Viewport) (d : Int) : Viewport := v.setYOffset (v.yoffset + d)

/-- Modelled from the spec: `SetContent` with `rows` rendered lines joined
by newlines; joining zero rows gives the empty string, which still splits
into one (empty) line, so the line count is never zero. -/
def Viewport.setContent (v : Viewport) (rows : Nat) : Viewport :=
  { v with lineCount := if rows == 0 then 1 else rows }

/-- Embeds `tree.go`'s `Model`: the provider's forest (`store`, holding the
current state bitmask of every shared node), the flattened slice
`Model.nodes` as paths into the store, the viewport, the focus flag and the
cursor. (The source also stores `root`, a reference to the first input
node; it is written once in `New` and never read afterwards, so it is not
tracked.) -/
structure Model where
  store : List GNode
  nodes : List (List Nat)
  view : Viewport
  focus : Bool
  cursor : Int
deriving Repr

/-- The stored flat slice, materialised against the current store as
path-annotated nodes (reading a shared node reference reads its current
state). Paths produced by `flatten` always resolve; a dangling path would
correspond to a dangling Go pointer and cannot arise. -/
def Model.annotatedNodes (m : Model) : List ANode :=
  m.nodes.filterMap (fun p => (getForest m.store p).map (annotate p))

/-- Embeds `Model.currentNode`, returning the identity (path) of the node
`m.nodes.at(m.cursor)` finds. -/
def Model.currentNodePath (m : Model) : Option (List Nat) :=
  (atIndexA m.annotatedNodes m.cursor).map ANode.path

/-- OR a bit mask into a node's state (`SetState(State() | b)`). -/
def orState (b : Nat) (n : GNode) : GNode := .mk (n.state ||| b) n.children

/-- XOR a bit mask into a node's state (`SetState(State() ^ b)`). -/
def xorState (b : Nat) (n : GNode) : GNode := .mk (n.state ^^^ b) n.children

/-- Embeds `Model.setCursor`: no-op when the cursor does not move;
otherwise XOR `NodeSelected` on the old current node (the source's comment
admits this should be an AND-NOT), move the cursor, then OR `NodeSelected`
on the new current node. Go would panic if a current node were nil; the
model leaves the state untouched in that (unreached) case. -/
def Model.setCursor (m : Model) (newCursorPos : Int) : Model :=
  if newCursorPos == m.cursor then m
  else
    let m1 :=
      match m.currentNodePath with
      | some p => { m with store := modifyForest (xorState 2) p m.store }
      | none => m
    let m2 := { m1 with cursor := newCursorPos }
    match m2.currentNodePath with
    | some p => { m2 with store := modifyForest (orState 2) p m2.store }
    | none => m2

/-- Embeds `Model.MoveUp`: early return at the top, clamp at 0, scroll the
view when the new cursor is above the visible window, set the cursor. -/
def Model.MoveUp (m : Model) (n : Int) : Model :=
  if m.cursor == 0 then m
  else
    let newCursorPos := max (m.cursor - n) 0
    let m' :=
      if newCursorPos < m.view.yoffset then
        { m with view := m.view.lineUp (newCursorPos - m.cursor) }
      else m
    m'.setCursor newCursorPos

/-- Embeds `Model.MoveDown`: early return at the bottom
(`TotalLineCount() - 1`), clamp there, scroll the view when the new cursor
is below the visible window, set the cursor. -/
def Model.MoveDown (m : Model) (n : Int) : Model :=
  let maxCursorPos := m.view.totalLineCount - 1
  if m.cursor == maxCursorPos then m
  else
    let newCursorPos := min (m.cursor + n) maxCursorPos
    let m' :=
      if m.view.yoffset + m.view.height - 1 < newCursorPos then
        { m with view := m.view.lineDown (newCursorPos - m.cursor) }
      else m
    m'.setCursor newCursorPos

/-- Embeds `Model.GotoTop`. -/
def Model.GotoTop (m : Model) : Model := m.MoveUp m.view.totalLineCount

/-- Embeds `Model.GotoBottom`. -/
def Model.GotoBottom (m : Model) : Model := m.MoveDown m.view.totalLineCount

/-- Embeds `Model.ToggleExpand`: fetch the current node; if it is not
collapsible do nothing, otherwise XOR `NodeCollapsed` on it. -/
def Model.ToggleExpand (m : Model) : Model :=
  match m.currentNodePath with
  | none => m
  | some p =>
    match getForest m.store p with
    | none => m
    | some n =>
      if isCollapsible n then { m with store := modifyForest (xorState 8) p m.store }
      else m

/-- Embeds `Model.Focus`. -/
def Model.Focus (m : Model) : Model := { m with focus := true }

/-- Embeds `Model.Blur`: XOR `NodeSelected` on the current node (again the
XOR that should be an AND-NOT), then drop focus; the cursor is not moved. -/
def Model.Blur (m : Model) : Model :=
  let m1 :=
    match m.currentNodePath with
    | some p => { m with store := modifyForest (xorState 2) p m.store }
    | none => m
  { m1 with focus := false }

/-- The state effect and rendered-row count of `Model.renderNodes` run over
the stored flat slice: walk the references (paths) with their loop index,
skip hidden nodes, OR the positional hints onto each non-hidden node, and
count the rendered rows. Modelled from the spec for the row count only:
every rendered line is non-empty (it contains at least one branch glyph),
so every non-hidden node contributes exactly one row. -/
def renderPassGo (len : Nat) : List GNode → List (List Nat) → Nat → Nat → List GNode × Nat
  | store, [], _, cnt => (store, cnt)
  | store, p :: rest, i, cnt =>
    match getForest store p with
    | none => renderPassGo len store rest (i + 1) cnt
    | some n =>
      if isHidden n then renderPassGo len store rest (i + 1) cnt
      else
        renderPassGo len (modifyForest (orState (hintsFor i len n)) p store) rest (i + 1)
          (cnt + 1)

/-- Embeds `Model.renderAllNodes`' state effect: a render pass over
`m.AllNodes()` (the stored flat slice), returning the updated model and the
number of rendered rows. -/
def Model.renderAllNodes (m : Model) : Model × Nat :=
  let res := renderPassGo m.nodes.length m.store m.nodes 0 0
  ({ m with store := res.1 }, res.2)

/-- Embeds `New`: select the first root (before flattening), store the
flattened slice, render every node once and hand the rendered rows to the
viewport. The source indexes `ns[0]` and would panic on an empty input
(spec §7 calls that construction undefined); the model returns an empty
model there. -/
def New (ns : List GNode) : Model :=
  match ns with
  | [] => { store := [], nodes := [], view := ⟨0, 0, 0, 0⟩, focus := false, cursor := 0 }
  | _ :: _ =>
    let store0 := modifyForest (orState 2) [0] ns
    let m0 : Model :=
      { store := store0, nodes := flattenPaths store0, view := ⟨0, 0, 0, 0⟩,
        focus := false, cursor := 0 }
    let res := m0.renderAllNodes
    { res.1 with view := res.1.view.setContent res.2 }

/-- Modelled from the spec: which key binding an incoming key message
matched (the `KeyMap` itself lives in a source file that is not present;
per the spec §6 the bindings are external configuration). `noBinding` is a
key that matches none of them. -/
inductive KeyAction : Type where
  | expand
  | lineUp
  | lineDown
  | pageUp
  | pageDown
  | halfPageUp
  | halfPageDown
  | gotoTop
  | gotoBottom
  | noBinding
deriving DecidableEq, Repr

/-- The two message shapes `Model.Update` inspects: window resizes and key
presses. -/
inductive Msg : Type where
  | windowSize (w h : Int)
  | keyMsg (k : KeyAction)
deriving DecidableEq, Repr

/-- Embeds `Model.Update`: when the model is not focused, return it as is
with the nil command; otherwise resize on `WindowSizeMsg`, and on a key
message toggle-and-rerender for the expand binding or dispatch to the move
operations (every path of the source returns the nil command — `noop` —
so the command component is always `none`). The two `ReplaceLine` calls
after a move touch only line contents, which the viewport model does not
track. -/
def Model.Update (m : Model) (msg : Msg) : Model × Option Unit :=
  if !m.focus then (m, none)
  else
    match msg with
    | .windowSize w h => ({ m with view := { m.view with width := w, height := h } }, none)
    | .keyMsg k =>
      match k with
      | .expand =>
        let m1 := m.ToggleExpand
        let res := m1.renderAllNodes
        ({ res.1 with view := res.1.view.setContent res.2 }, none)
      | .lineUp => (m.MoveUp 1, none)
      | .lineDown => (m.MoveDown 1, none)
      | .pageUp => (m.MoveUp m.view.height, none)
      | .pageDown => (m.MoveDown m.view.height, none)
      | .halfPageUp => (m.MoveUp (Int.tdiv m.view.height 2), none)
      | .halfPageDown => (m.MoveDown (Int.tdiv m.view.height 2), none)
      | .gotoTop => (m.GotoTop, none)
      | .gotoBottom => (m.GotoBottom, none)
      | .noBinding => (m, none)

/-- A navigation call in a `MoveUp`/`MoveDown` call sequence. -/
inductive MoveOp : Type where
  | up (n : Int)
  | down (n : Int)
deriving DecidableEq, Repr

/-- The row count a move was called with. -/
def MoveOp.amount : MoveOp → Int
  | .up n => n
  | .down n => n

/-- Run a sequence of move calls against the model. -/
def applyMoves : Model → List MoveOp → Model
  | m, [] => m
  | m, .up n :: rest => applyMoves (m.MoveUp n) rest
  | m, .down n :: rest => applyMoves (m.MoveDown n) rest

mutual
/-- Number of nodes in a subtree carrying the `Selected` flag. -/
def selCountF : GNode → Nat
  | .mk s cs => (if stateIs s 2 then 1 else 0) + selCountL cs
/-- Number of nodes in a forest carrying the `Selected` flag. -/
def selCountL : List GNode → Nat
  | [] => 0
  | n :: rest => selCountF n + selCountL rest
end

mutual
theorem countNodesBelow_eq_zero : ∀ (n : GNode), countNodesBelow n = 0
  | .mk _ cs => by
    unfold countNodesBelow
    exact cnbList_eq_zero cs

theorem cnbList_eq_zero : ∀ (cs : List GNode), cnbList cs = 0
  | [] => by simp [cnbList]
  | c :: rest => by
    unfold cnbList
    rw [countNodesBelow_eq_zero c, cnbList_eq_zero rest]
    simp
end

theorem flatten_append (xs ys : List GNode) :
    flatten (xs ++ ys) = flatten xs ++ flatten ys := by
  induction xs with
  | nil => simp [flatten]
  | cons n rest ih => simp [flatten, ih]

mutual
theorem flattenOne_not_hidden : ∀ (n : GNode), ∀ x ∈ flattenOne n, isHidden x = false
  | .mk s cs => by
    intro x hx
    unfold flattenOne at hx
    by_cases h : isHidden (GNode.mk s cs)
    · simp [h] at hx
    · simp only [h, if_false] at hx
      rcases List.mem_cons.mp hx with rfl | hx'
      · simpa using h
      · split at hx'
        · exact flatten_not_hidden cs x hx'
        · simp at hx'

theorem flatten_not_hidden : ∀ (ns : List GNode), ∀ x ∈ flatten ns, isHidden x = false
  | [] => by intro x hx; simp [flatten] at hx
  | n :: rest => by
    intro x hx
    unfold flatten at hx
    rcases List.mem_append.mp hx with h1 | h2
    · exact flattenOne_not_hidden n x h1
    · exact flatten_not_hidden rest x h2
end

mutual
theorem flattenPathsOne_chain : ∀ (s : Nat) (cs : List GNode),
    ∀ p ∈ flattenPathsOne (.mk s cs), ∃ q, p = 0 :: q ∧ visibleChainN (.mk s cs) q = true
  | s, cs => by
    intro p hp
    unfold flattenPathsOne at hp
    by_cases h : isHidden (GNode.mk s cs)
    · simp [h] at hp
    · simp only [h, if_false] at hp
      rcases List.mem_cons.mp hp with rfl | hp'
      · exact ⟨[], rfl, by simpa [visibleChainN] using h⟩
      · by_cases hcoll : (isCollapsible (GNode.mk s cs) && isExpanded (GNode.mk s cs)) = true
        · rw [if_pos hcoll] at hp'
          simp only [List.mem_map] at hp'
          obtain ⟨q, hq, rfl⟩ := hp'
          refine ⟨q, rfl, ?_⟩
          have hch := flattenPaths_chain cs q hq
          have hqne : q ≠ [] := by
            intro hnil
            rw [hnil] at hch
            simp [visibleChain] at hch
          obtain ⟨j, q', rfl⟩ := List.exists_cons_of_ne_nil hqne
          have hf : isHidden (GNode.mk s cs) = false := by simpa using h
          have hc : isCollapsible (GNode.mk s cs) = true ∧
              isExpanded (GNode.mk s cs) = true := by simpa using hcoll
          have hvl : visibleChainL cs j q' = true := by simpa [visibleChain] using hch
          simp [visibleChainN, hf, hc.2, hvl]
        · rw [if_neg hcoll] at hp'; simp at hp'

theorem flattenPaths_chain : ∀ (ns : List GNode),
    ∀ p ∈ flattenPaths ns, visibleChain ns p = true
  | [] => by intro p hp; simp [flattenPaths] at hp
  | n :: rest => by
    intro p hp
    unfold flattenPaths at hp
    rcases List.mem_append.mp hp with h1 | h2
    · obtain ⟨s, cs⟩ := n
      obtain ⟨q, rfl, hq⟩ := flattenPathsOne_chain s cs p h1
      simpa [visibleChain, visibleChainL] using hq
    · simp only [List.mem_map] at h2
      obtain ⟨q, hq, rfl⟩ := h2
      have hch := flattenPaths_chain rest q hq
      have hqne : q ≠ [] := by
        intro hnil
        rw [hnil] at hch
        simp [visibleChain] at hch
      obtain ⟨j, q', rfl⟩ := List.exists_cons_of_ne_nil hqne
      simpa [visibleChain, shiftP, visibleChainL] using hch
end

mutual
theorem flattenPathsOne_map : ∀ (s : Nat) (cs rest : List GNode),
    (flattenPathsOne (.mk s cs)).map (fun p => getForest (GNode.mk s cs :: rest) p) =
      (flattenOne (.mk s cs)).map some
  | s, cs, rest => by
    unfold flattenPathsOne flattenOne
    by_cases h : isHidden (GNode.mk s cs)
    · simp [h]
    · rw [if_neg h, if_neg h]
      by_cases hcoll : (isCollapsible (GNode.mk s cs) && isExpanded (GNode.mk s cs)) = true
      · rw [if_pos hcoll, if_pos hcoll]
        rw [List.map_cons, List.map_cons]
        congr 1
        rw [List.map_map, ← flattenPaths_map cs]
        apply List.map_congr_left
        intro q hq
        have hch := flattenPaths_chain cs q hq
        have hqne : q ≠ [] := by
          intro hnil
          rw [hnil] at hch
          simp [visibleChain] at hch
        obtain ⟨j, q', rfl⟩ := List.exists_cons_of_ne_nil hqne
        simp [getForest, getList, getNode, Function.comp]
      · rw [if_neg hcoll, if_neg hcoll]
        rfl

theorem flattenPaths_map : ∀ (ns : List GNode),
    (flattenPaths ns).map (fun p => getForest ns p) = (flatten ns).map some
  | [] => by simp [flattenPaths, flatten]
  | n :: rest => by
    unfold flattenPaths flatten
    rw [List.map_append, List.map_append]
    congr 1
    · obtain ⟨s, cs⟩ := n
      exact flattenPathsOne_map s cs rest
    · rw [← flattenPaths_map rest, List.map_map]
      apply List.map_congr_left
      intro q hq
      have hch := flattenPaths_chain rest q hq
      have hqne : q ≠ [] := by
        intro hnil
        rw [hnil] at hch
        simp [visibleChain] at hch
      obtain ⟨j, q', rfl⟩ := List.exists_cons_of_ne_nil hqne
      simp [getForest, shiftP, getList, Function.comp]
end

/-- C5: the visible flat order contains only nodes that are themselves not
hidden and whose proper ancestors are all neither hidden nor collapsed: no
member of `flatten`'s output is hidden (first conjunct), `flattenPaths`
lists the tree positions of `flatten`'s output in order (second conjunct
ties the two), and every such position passes `visibleChain` — so
`flatten` never includes a hidden node, never includes a descendant of a
collapsed node, and a hidden node contributes neither itself nor any
descendant, whatever its own collapsed state. -/
theorem flatten_visible_only : ∀ ns : List GNode,
    (∀ x ∈ flatten ns, isHidden x = false) ∧
      ((flattenPaths ns).map (fun p => getForest ns p) = (flatten ns).map some) ∧
      (∀ p ∈ flattenPaths ns, visibleChain ns p = true) :=
  fun ns => ⟨flatten_not_hidden ns, flattenPaths_map ns, flattenPaths_chain ns⟩

/-- Witness for C5: on a forest whose root is collapsible and expanded with
a hidden first child and a plain second child, the position `[0, 1]` (the
second child) is in the visible order and its chain check holds. -/
theorem flatten_visible_only_witness :
    [0, 1] ∈ flattenPaths [GNode.mk 4 [GNode.mk 16 [], GNode.mk 0 []]] ∧
      visibleChain [GNode.mk 4 [GNode.mk 16 [], GNode.mk 0 []]] [0, 1] = true :=
  ⟨by decide, (flatten_visible_only [GNode.mk 4 [GNode.mk 16 [], GNode.mk 0 []]]).2.2 [0, 1]
    (by decide)⟩

mutual
theorem atDescend_bound : ∀ (n : GNode) (i : Int),
    (atDescend n i).isSome = true → 0 ≤ i ∧ i < (totalCountL n.children : Int)
  | .mk s cs, i => by
    intro h
    unfold atDescend at h
    have hb := atAux_bound cs i 0 h
    simp only [GNode.children]
    omega

theorem atAux_bound : ∀ (ns : List GNode) (i j : Int),
    (atAux ns i j).isSome = true → j ≤ i ∧ i < j + (totalCountL ns : Int)
  | [], i, j => by intro h; simp [atAux] at h
  | .mk s cs :: rest, i, j => by
    intro h
    unfold atAux at h
    have hF : (1 : Int) ≤ (totalCountF (.mk s cs) : Int) := by
      simp only [totalCountF]; push_cast; omega
    have hL : (totalCountL (GNode.mk s cs :: rest) : Int) =
        (totalCountF (.mk s cs) : Int) + (totalCountL rest : Int) := by
      simp only [totalCountL]; push_cast; ring
    by_cases hh : isHidden (.mk s cs)
    · rw [if_pos hh] at h
      have := atAux_bound rest i j h
      omega
    · rw [if_neg hh] at h
      by_cases hji : j = i
      · omega
      · have hji' : (j == i) = false := by simpa using hji
        rw [hji'] at h
        simp only [Bool.false_eq_true, if_false] at h
        by_cases he : isExpanded (.mk s cs)
        · rw [if_pos he] at h
          cases hd : atDescend (.mk s cs) (i - j - 1) with
          | some nn =>
            rw [hd] at h
            have hdb := atDescend_bound (.mk s cs) (i - j - 1) (by rw [hd]; rfl)
            simp only [GNode.children] at hdb
            have hFc : (totalCountF (.mk s cs) : Int) = 1 + (totalCountL cs : Int) := by
              simp only [totalCountF]; push_cast; ring
            omega
          | none =>
            rw [hd] at h
            rw [countNodesBelow_eq_zero] at h
            have := atAux_bound rest i (j + 0 + 1) h
            omega
        · rw [if_neg he] at h
          have := atAux_bound rest i (j + 1) h
          omega
end

/-- The corrected range statement for C9: `at` on an empty sequence
answers none for every index, and more generally any index outside
`[0, totalCount - 1]` — where `totalCount` counts every node of the forest,
hidden and collapsed included — is answered with none. (An index beyond
the visible flat order but below the total node count may still be
answered with a node; see the counterexample.) -/
theorem atIndex_none_outside_forest : (∀ i : Int, atIndex [] i = none) ∧
    ∀ (ns : List GNode) (i : Int), (i < 0 ∨ (totalCountL ns : Int) ≤ i) →
      atIndex ns i = none := by
  constructor
  · intro i; simp [atIndex, atAux]
  · intro ns i hrange
    cases h : atAux ns i 0 with
    | none => simpa [atIndex] using h
    | some n =>
      have := atAux_bound ns i 0 (by rw [h]; rfl)
      omega

/-- Witness for C9's theorem: index 5 is outside the 1-node forest, and
`at` answers none there. -/
theorem atIndex_none_outside_forest_witness :
    (((5 : Int) < 0) ∨ ((totalCountL [GNode.mk 0 []] : Int) ≤ 5)) ∧
      atIndex [GNode.mk 0 []] 5 = none :=
  ⟨Or.inr (by decide), atIndex_none_outside_forest.2 [GNode.mk 0 []] 5 (Or.inr (by decide))⟩

/-- Counterexample for C9 as stated: on `[n]` where `n` has a child but is
not collapsible, the visible flat order has length 1 (the child is not
visible), yet `at` at the out-of-range index 1 returns the child rather
than none — `at` descends into any expanded node's children, even when
`flatten` does not. -/
theorem atIndex_out_of_range_some :
    atIndex [GNode.mk 0 [GNode.mk 0 []]] 1 = some (GNode.mk 0 []) ∧
      (flatten [GNode.mk 0 [GNode.mk 0 []]]).length = 1 := by
  constructor
  · rfl
  · rfl

/-- C2: `countNodesBelow` is documented ("returns the number of all nodes
below the given one") and specified to return the total descendant count,
but the source accumulates only the recursive calls and never counts the
children themselves, so it returns 0 for every node. At the failing input,
a node with exactly one child (one descendant), it returns 0 instead of 1;
`totalCountL` of the children witnesses that one descendant exists. -/
theorem countNodesBelow_child_is_zero :
    countNodesBelow (GNode.mk 0 [GNode.mk 0 []]) = 0 ∧
      totalCountL (GNode.mk 0 [GNode.mk 0 []]).children = 1 := by
  constructor
  · rfl
  · rfl

/-- C1: `at` is documented to agree with `flatten` ("should be the same as
ns.flatten()[i], but more performant"), but it does not: on the sequence
`[a, b]` where `a` is collapsible and expanded with one plain child, the
visible flat order is `[a, child, b]`, yet `at` at index 2 returns none
instead of `b` — the skip distance `countNodesBelow` is always 0, so the
counter `j` undercounts after the descent into `a`'s subtree misses. -/
theorem atIndex_disagrees_with_flatten :
    atIndex [GNode.mk 4 [GNode.mk 0 []], GNode.mk 0 []] 2 = none ∧
      (flatten [GNode.mk 4 [GNode.mk 0 []], GNode.mk 0 []]).get? 2 =
        some (GNode.mk 0 []) := by
  constructor
  · rfl
  · rfl

theorem stateIs_two_pow (s i : Nat) : stateIs s (2 ^ i) = s.testBit i := by
  unfold stateIs
  rw [Nat.and_two_pow]
  cases h : s.testBit i
  · simp [(Nat.two_pow_pos i).ne]
  · simp

theorem isHidden_testBit (s : Nat) (cs : List GNode) :
    isHidden (.mk s cs) = s.testBit 4 := stateIs_two_pow s 4

theorem isExpanded_testBit (s : Nat) (cs : List GNode) :
    isExpanded (.mk s cs) = !s.testBit 3 := by
  unfold isExpanded
  rw [show stateIs (GNode.state (.mk s cs)) 8 = s.testBit 3 from stateIs_two_pow s 3]

theorem isCollapsible_testBit (s : Nat) (cs : List GNode) :
    isCollapsible (.mk s cs) = s.testBit 2 := stateIs_two_pow s 2

theorem isSelected_testBit (s : Nat) (cs : List GNode) :
    isSelected (.mk s cs) = s.testBit 1 := stateIs_two_pow s 1

theorem isLastNode_testBit (s : Nat) (cs : List GNode) :
    isLastNode (.mk s cs) = s.testBit 5 := stateIs_two_pow s 5

theorem testBit_xor_const (s b i : Nat) (h : b.testBit i = false) :
    (s ^^^ b).testBit i = s.testBit i := by
  rw [Nat.testBit_xor, h, Bool.xor_false]

theorem testBit_or_const (s b i : Nat) (h : b.testBit i = false) :
    (s ||| b).testBit i = s.testBit i := by
  rw [Nat.testBit_lor, h, Bool.or_false]

theorem testBit_xor_flip (s b i : Nat) (h : b.testBit i = true) :
    (s ^^^ b).testBit i = !s.testBit i := by
  rw [Nat.testBit_xor, h, Bool.xor_true]

theorem toggleExpand_of_collapsible {n : GNode} (h : isCollapsible n = true) :
    toggleExpand n = .mk (n.state ^^^ 8) n.children := by
  unfold toggleExpand
  rw [h]
  simp

theorem toggleExpand_of_not_collapsible {n : GNode} (h : isCollapsible n = false) :
    toggleExpand n = n := by
  unfold toggleExpand
  rw [h]
  simp

theorem isExpanded_xor8 (s : Nat) (cs cs' : List GNode) :
    isExpanded (.mk (s ^^^ 8) cs') = !isExpanded (.mk s cs) := by
  rw [isExpanded_testBit, isExpanded_testBit, testBit_xor_flip s 8 3 (by decide)]

theorem flattenOne_hidden (s : Nat) (cs : List GNode) (hh : isHidden (.mk s cs) = true) :
    flattenOne (.mk s cs) = [] := by
  unfold flattenOne
  rw [if_pos hh]

theorem flattenOne_expanded (s : Nat) (cs : List GNode)
    (hh : isHidden (.mk s cs) = false)
    (hc : (isCollapsible (.mk s cs) && isExpanded (.mk s cs)) = true) :
    flattenOne (.mk s cs) = GNode.mk s cs :: flatten cs := by
  unfold flattenOne
  rw [if_neg (by simp [hh]), if_pos hc]

theorem flattenOne_single (s : Nat) (cs : List GNode)
    (hh : isHidden (.mk s cs) = false)
    (hc : (isCollapsible (.mk s cs) && isExpanded (.mk s cs)) = false) :
    flattenOne (.mk s cs) = [GNode.mk s cs] := by
  unfold flattenOne
  rw [if_neg (by simp [hh]), if_neg (by simp [hc])]

theorem isCollapsible_xor8 (s : Nat) (cs cs' : List GNode) :
    isCollapsible (.mk (s ^^^ 8) cs') = isCollapsible (.mk s cs) := by
  rw [isCollapsible_testBit, isCollapsible_testBit, testBit_xor_const s 8 2 (by decide)]

theorem isHidden_xor8 (s : Nat) (cs cs' : List GNode) :
    isHidden (.mk (s ^^^ 8) cs') = isHidden (.mk s cs) := by
  rw [isHidden_testBit, isHidden_testBit, testBit_xor_const s 8 4 (by decide)]

mutual
theorem getNode_modifyTree (f : GNode → GNode) : ∀ (p : List Nat) (n : GNode),
    getNode (modifyTree f p n) p = (getNode n p).map f
  | [], n => by simp [modifyTree, getNode]
  | k :: q, .mk s cs => by
    simp only [modifyTree, getNode]
    exact getList_modifyList f k q cs

theorem getList_modifyList (f : GNode → GNode) : ∀ (k : Nat) (q : List Nat)
    (cs : List GNode), getList (modifyList f k q cs) k q = (getList cs k q).map f
  | k, q, [] => by cases k <;> simp [modifyList, getList]
  | 0, q, c :: rest => by
    simp only [modifyList, getList]
    exact getNode_modifyTree f q c
  | k + 1, q, c :: rest => by
    simp only [modifyList, getList]
    exact getList_modifyList f k q rest
end

theorem getForest_modifyForest (f : GNode → GNode) (p : List Nat) (ns : List GNode) :
    getForest (modifyForest f p ns) p = (getForest ns p).map f := by
  cases p with
  | nil => simp [getForest, modifyForest]
  | cons k q => exact getList_modifyList f k q ns

mutual
theorem reachN_target_not_hidden : ∀ (p : List Nat) (n m : GNode),
    reachN n p = true → getNode n p = some m → isHidden m = false
  | [], n, m => by
    intro hr hg
    simp only [getNode, Option.some.injEq] at hg
    subst hg
    simpa [reachN] using hr
  | k :: q, .mk s cs, m => by
    intro hr hg
    simp only [reachN, Bool.and_eq_true] at hr
    simp only [getNode] at hg
    exact reachL_target_not_hidden k q cs m hr.2 hg

theorem reachL_target_not_hidden : ∀ (k : Nat) (q : List Nat) (cs : List GNode) (m : GNode),
    reachL cs k q = true → getList cs k q = some m → isHidden m = false
  | k, q, [], m => by intro hr; simp [reachL] at hr
  | 0, q, c :: rest, m => by
    intro hr hg
    simp only [reachL] at hr
    simp only [getList] at hg
    exact reachN_target_not_hidden q c m hr hg
  | k + 1, q, c :: rest, m => by
    intro hr hg
    simp only [reachL] at hr
    simp only [getList] at hg
    exact reachL_target_not_hidden k q rest m hr hg
end

mutual
theorem flattenOne_modifyTree_len (f : GNode → GNode) : ∀ (p : List Nat) (n m : GNode),
    reachN n p = true → getNode n p = some m →
    (flattenOne (modifyTree f p n)).length + (flattenOne m).length =
      (flattenOne n).length + (flattenOne (f m)).length
  | [], n, m => by
    intro _ hg
    simp only [getNode, Option.some.injEq] at hg
    subst hg
    simp only [modifyTree]
    omega
  | k :: q, .mk s cs, m => by
    intro hr hg
    simp only [reachN, Bool.and_eq_true] at hr
    obtain ⟨⟨hnh, hce⟩, hrl⟩ := hr
    simp only [getNode] at hg
    simp only [modifyTree]
    have hh : isHidden (GNode.mk s cs) = false := by simpa using hnh
    have hh' : isHidden (GNode.mk s (modifyList f k q cs)) = false := by
      rw [isHidden_testBit] at hh ⊢
      exact hh
    have hlen := flatten_modifyList_len f k q cs m hrl hg
    have hcoll : (isCollapsible (GNode.mk s cs) && isExpanded (GNode.mk s cs)) = true := by
      simp [hce.1, hce.2]
    have hcoll' :
        (isCollapsible (GNode.mk s (modifyList f k q cs)) &&
          isExpanded (GNode.mk s (modifyList f k q cs))) = true := by
      rw [isCollapsible_testBit, isExpanded_testBit] at hcoll ⊢
      exact hcoll
    rw [flattenOne_expanded s cs hh hcoll, flattenOne_expanded s _ hh' hcoll']
    simp only [List.length_cons]
    omega

theorem flatten_modifyList_len (f : GNode → GNode) : ∀ (k : Nat) (q : List Nat)
    (cs : List GNode) (m : GNode), reachL cs k q = true → getList cs k q = some m →
    (flatten (modifyList f k q cs)).length + (flattenOne m).length =
      (flatten cs).length + (flattenOne (f m)).length
  | k, q, [], m => by intro hr; simp [reachL] at hr
  | 0, q, c :: rest, m => by
    intro hr hg
    simp only [reachL] at hr
    simp only [getList] at hg
    simp only [modifyList, flatten, List.length_append]
    have := flattenOne_modifyTree_len f q c m hr hg
    omega
  | k + 1, q, c :: rest, m => by
    intro hr hg
    simp only [reachL] at hr
    simp only [getList] at hg
    simp only [modifyList, flatten, List.length_append]
    have := flatten_modifyList_len f k q rest m hr hg
    omega
end

theorem flatten_modifyForest_len (f : GNode → GNode) (p : List Nat) (ns : List GNode)
    (m : GNode) (hr : cursorReachable ns p = true) (hg : getForest ns p = some m) :
    (flatten (modifyForest f p ns)).length + (flattenOne m).length =
      (flatten ns).length + (flattenOne (f m)).length := by
  cases p with
  | nil => simp [cursorReachable] at hr
  | cons k q =>
    exact flatten_modifyList_len f k q ns m (by simpa [cursorReachable] using hr)
      (by simpa [getForest] using hg)

mutual
theorem modifyTree_id_of_fix (f : GNode → GNode) : ∀ (p : List Nat) (n m : GNode),
    getNode n p = some m → f m = m → modifyTree f p n = n
  | [], n, m => by
    intro hg hf
    simp only [getNode, Option.some.injEq] at hg
    subst hg
    simpa [modifyTree] using hf
  | k :: q, .mk s cs, m => by
    intro hg hf
    simp only [getNode] at hg
    simp only [modifyTree]
    rw [modifyList_id_of_fix f k q cs m hg hf]

theorem modifyList_id_of_fix (f : GNode → GNode) : ∀ (k : Nat) (q : List Nat)
    (cs : List GNode) (m : GNode), getList cs k q = some m → f m = m →
    modifyList f k q cs = cs
  | k, q, [], m => by intro hg; simp [getList] at hg
  | 0, q, c :: rest, m => by
    intro hg hf
    simp only [getList] at hg
    simp only [modifyList]
    rw [modifyTree_id_of_fix f q c m hg hf]
  | k + 1, q, c :: rest, m => by
    intro hg hf
    simp only [getList] at hg
    simp only [modifyList]
    rw [modifyList_id_of_fix f k q rest m hg hf]
end

theorem cursorReachable_target_not_hidden (ns : List GNode) (p : List Nat) (n : GNode)
    (hr : cursorReachable ns p = true) (hg : getForest ns p = some n) :
    isHidden n = false := by
  cases p with
  | nil => simp [cursorReachable] at hr
  | cons k q =>
    exact reachL_target_not_hidden k q ns n (by simpa [cursorReachable] using hr)
      (by simpa [getForest] using hg)

theorem modifyForest_id_of_fix (f : GNode → GNode) (p : List Nat) (ns : List GNode)
    (m : GNode) (hg : getForest ns p = some m) (hf : f m = m) :
    modifyForest f p ns = ns := by
  cases p with
  | nil => rfl
  | cons k q => exact modifyList_id_of_fix f k q ns m (by simpa [getForest] using hg) hf

/-- C3 (amended): toggling the node at a cursor-reachable position is
effective exactly when the node is collapsible: its `Collapsed` flag flips
(`isExpanded` inverts), and the length of the fully re-flattened visible
order changes by exactly the node's visible subtree size
`(flatten n.children).length` — shrinking by it on collapse, growing by it
on expand; toggling a non-collapsible node changes nothing at all. (The
claim's quantity `countBelow(node)` is wrong on this code: the source's
`countNodesBelow` always returns 0 — see C2 — so the claimed change does
not match; see the counterexample.) -/
theorem toggleExpand_count_change (ns : List GNode) (p : List Nat) (n : GNode)
    (hr : cursorReachable ns p = true) (hg : getForest ns p = some n) :
    (isCollapsible n = true →
      getForest (modifyForest toggleExpand p ns) p = some (toggleExpand n) ∧
      isExpanded (toggleExpand n) = !isExpanded n ∧
      (isExpanded n = true →
        (flatten ns).length =
          (flatten (modifyForest toggleExpand p ns)).length + (flatten n.children).length) ∧
      (isExpanded n = false →
        (flatten (modifyForest toggleExpand p ns)).length =
          (flatten ns).length + (flatten n.children).length)) ∧
    (isCollapsible n = false → modifyForest toggleExpand p ns = ns) := by
  have hhid := cursorReachable_target_not_hidden ns p n hr hg
  have hlen := flatten_modifyForest_len toggleExpand p ns n hr hg
  have hget := getForest_modifyForest toggleExpand p ns
  rw [hg] at hget
  constructor
  · intro hc
    obtain ⟨s, cs⟩ := n
    have htog : toggleExpand (GNode.mk s cs) = .mk (s ^^^ 8) cs := by
      rw [toggleExpand_of_collapsible hc]
      rfl
    have hhid' : isHidden (GNode.mk (s ^^^ 8) cs) = false := by
      rw [isHidden_xor8 s cs cs]
      exact hhid
    have hcoll' : isCollapsible (GNode.mk (s ^^^ 8) cs) = true := by
      rw [isCollapsible_xor8 s cs cs]
      exact hc
    have hflip : isExpanded (GNode.mk (s ^^^ 8) cs) = !isExpanded (GNode.mk s cs) :=
      isExpanded_xor8 s cs cs
    refine ⟨by rw [hget]; rfl, by rw [htog]; exact hflip, ?_, ?_⟩
    · intro he
      rw [htog] at hlen
      rw [flattenOne_expanded s cs hhid (by rw [hc, he]; rfl)] at hlen
      rw [flattenOne_single (s ^^^ 8) cs hhid' (by rw [hcoll', hflip, he]; rfl)] at hlen
      simp only [List.length_cons, List.length_nil, GNode.children]
      simp only [List.length_cons, List.length_nil] at hlen
      omega
    · intro he
      rw [htog] at hlen
      rw [flattenOne_single s cs hhid (by rw [hc, he]; rfl)] at hlen
      rw [flattenOne_expanded (s ^^^ 8) cs hhid' (by rw [hcoll', hflip, he]; rfl)] at hlen
      simp only [List.length_cons, List.length_nil, GNode.children]
      simp only [List.length_cons, List.length_nil] at hlen
      omega
  · intro hc
    exact modifyForest_id_of_fix toggleExpand p ns n hg (toggleExpand_of_not_collapsible hc)

/-- Witness for C3's amended theorem: collapsing the expanded collapsible
root of a two-node tree shrinks the visible order by exactly its visible
subtree size (one child). -/
theorem toggleExpand_count_change_witness :
    (flatten [GNode.mk 4 [GNode.mk 0 []]]).length =
      (flatten (modifyForest toggleExpand [0] [GNode.mk 4 [GNode.mk 0 []]])).length +
        (flatten (GNode.mk 4 [GNode.mk 0 []]).children).length :=
  ((toggleExpand_count_change [GNode.mk 4 [GNode.mk 0 []]] [0] (GNode.mk 4 [GNode.mk 0 []])
      rfl rfl).1 rfl).2.2.1 rfl

theorem hintsFor_testBit (i len : Nat) (n : GNode) :
    (hintsFor i len n).testBit 5 = (i == len - 1) ∧
      (hintsFor i len n).testBit 3 = false ∧
      (hintsFor i len n).testBit 4 = false := by
  unfold hintsFor
  by_cases h1 : 0 < i <;> by_cases h2 : hasChildren n = true <;>
    by_cases h3 : (i == len - 1) = true <;>
      simp only [h1, h2, h3, if_true, if_false, ite_true, ite_false, if_pos, if_neg,
        not_false_iff] <;>
    simp [h1, h2, h3] <;> decide

theorem isLastNode_or_hints (s : Nat) (cs cs' : List GNode) (i len : Nat) (n : GNode) :
    isLastNode (.mk (s ||| hintsFor i len n) cs') =
      (isLastNode (.mk s cs) || (i == len - 1)) := by
  rw [isLastNode_testBit, isLastNode_testBit, Nat.testBit_lor,
    (hintsFor_testBit i len n).1]

theorem renderHintsGo_get (len : Nat) : ∀ (ns : List GNode) (i0 i : Nat) (n : GNode),
    ns.get? i = some n →
    (renderHintsGo len i0 ns).get? i =
      some (if isHidden n then n else .mk (n.state ||| hintsFor (i0 + i) len n) n.children) := by
  intro ns
  induction ns with
  | nil => intro i0 i n h; simp at h
  | cons c rest ih =>
    intro i0 i n h
    cases i with
    | zero =>
      simp only [List.get?, Option.some.injEq] at h
      subst h
      simp only [renderHintsGo, Nat.add_zero]
      by_cases hh : isHidden c
      · rw [if_pos hh, if_pos hh]; rfl
      · rw [if_neg hh, if_neg hh]; rfl
    | succ i' =>
      simp only [List.get?] at h
      have hrec := ih (i0 + 1) i' n h
      have harr : i0 + 1 + i' = i0 + (i' + 1) := by omega
      rw [harr] at hrec
      by_cases hh : isHidden c
      · simp only [renderHintsGo, if_pos hh, List.get?]
        exact hrec
      · simp only [renderHintsGo, if_neg hh, List.get?]
        exact hrec

/-- C6 (amended): the render pass sets `LastChild` positionally, not per
sibling group: after a pass over a sequence `ns`, a node's `LastChild`
flag is set iff it was already set before the pass, or the node sits at
the final index of `ns` and is not hidden. The flag is ORed onto the
existing state — carried over, never cleared — and `renderAllNodes` runs
the pass over the stored flat sequence, not over each parent's children,
so a node that is last among its own siblings but not last in the flat
sequence does not receive the flag (see the counterexample). -/
theorem renderHints_lastChild (ns : List GNode) (i : Nat) (n : GNode)
    (h : ns.get? i = some n) :
    ((renderHintsList ns).get? i).map isLastNode =
      some (isLastNode n || (!isHidden n && i + 1 == ns.length)) := by
  have hlt : i < ns.length := by
    by_contra hge
    rw [List.get?_eq_none.mpr (Nat.not_lt.mp hge)] at h
    exact Option.noConfusion h
  rw [renderHintsList, renderHintsGo_get ns.length ns 0 i n h]
  by_cases hh : isHidden n
  · rw [if_pos hh]
    simp [hh]
  · rw [if_neg hh]
    obtain ⟨s, cs⟩ := n
    have hbeq : ((0 + i) == ns.length - 1) = ((i + 1) == ns.length) := by
      rw [Nat.zero_add]
      cases hq : (i == ns.length - 1) <;> cases hq2 : ((i + 1) == ns.length)
      · rfl
      · exact absurd (eq_of_beq hq2)
          (by have := beq_eq_false_iff_ne.mp hq; omega)
      · exact absurd (eq_of_beq hq)
          (by have := beq_eq_false_iff_ne.mp hq2; omega)
      · rfl
    have hlast := isLastNode_or_hints s cs cs (0 + i) ns.length (GNode.mk s cs)
    rw [show GNode.state (GNode.mk s cs) = s from rfl,
      show GNode.children (GNode.mk s cs) = cs from rfl]
    rw [Option.map_some', hlast, hbeq]
    rw [show isHidden (GNode.mk s cs) = false by simpa using hh]
    simp

/-- Counterexample for C6 as stated: the component's render input for the
one-root tree `r(collapsible, expanded) → [a]` is the flat sequence
`flatten [r] = [r, a]`. After the render pass, `r` — the final (and only)
root, hence the final entry of its sibling group — still has no
`LastChild` flag (the claim requires it to be set), because the pass flags
only the final entry of the flat sequence, the child `a`. -/
theorem renderHints_lastChild_counterexample :
    ((renderHintsList (flatten [GNode.mk 4 [GNode.mk 0 []]])).get? 0).map isLastNode =
      some false ∧
      ((renderHintsList (flatten [GNode.mk 4 [GNode.mk 0 []]])).get? 1).map isLastNode =
        some true := by
  constructor
  · rfl
  · rfl

/-- Witness for C6's amended theorem: a non-final node whose `LastChild`
flag was already set keeps it after the pass (carried over, not
recomputed). -/
theorem renderHints_lastChild_witness :
    ([GNode.mk 32 [], GNode.mk 0 []].get? 0 = some (GNode.mk 32 [])) ∧
      ((renderHintsList [GNode.mk 32 [], GNode.mk 0 []]).get? 0).map isLastNode =
        some (isLastNode (GNode.mk 32 []) ||
          (!isHidden (GNode.mk 32 []) && 0 + 1 == [GNode.mk 32 [], GNode.mk 0 []].length)) :=
  ⟨rfl, renderHints_lastChild [GNode.mk 32 [], GNode.mk 0 []] 0 (GNode.mk 32 []) rfl⟩

mutual
theorem paddingWalk_spec : ∀ (n : PNode) (k : Nat),
    (paddingWalk n k = true ↔
      (ancestorAt n k = none ∨ ∃ a, ancestorAt n k = some a ∧ isLastNodeP a = true))
  | n, 0 => by simp [paddingWalk, ancestorAt]
  | .mk s par, k + 1 => by
    simp only [paddingWalk, ancestorAt]
    exact paddingWalkO_spec par k

theorem paddingWalkO_spec : ∀ (o : Option PNode) (k : Nat),
    (paddingWalkO o k = true ↔
      (ancestorAtO o k = none ∨ ∃ a, ancestorAtO o k = some a ∧ isLastNodeP a = true))
  | none, k => by simp [paddingWalkO, ancestorAtO]
  | some p, k => by
    simp only [paddingWalkO, ancestorAtO]
    exact paddingWalk_spec p k
end

theorem hasPaddingAtPos_some (m : PNode) (depth maxDepth : Int) :
    hasPaddingAtPos (some m) depth maxDepth =
      (if depth > maxDepth then true
       else if depth == maxDepth then false
       else paddingWalk m (maxDepth - depth).toNat) := rfl

/-- C8: over the glyph grid of a node `n` at depth `d = getDepth n`, for
every column `pos` in `0..d`: the column is padding iff `pos ≠ d` and the
walk of exactly `d - pos` ancestor hops runs off the root or reaches a
`LastChild` ancestor (and never at the node's own column `pos = d`); the
node's own column shows the terminator glyph when `n` is `LastChild` and
the starter glyph otherwise; and a non-padding column strictly below the
node's own renders the continuation connector. -/
theorem treeSymbol_spec (n : PNode) (pos : Int) (h0 : 0 ≤ pos)
    (hd : pos ≤ (getDepth n : Int)) :
    (getTreeSymbolForPos n pos (getDepth n) = Glyph.padding ↔
      (pos ≠ (getDepth n : Int) ∧
        (ancestorAt n (((getDepth n : Int) - pos).toNat) = none ∨
          ∃ a, ancestorAt n (((getDepth n : Int) - pos).toNat) = some a ∧
            isLastNodeP a = true))) ∧
    (pos = (getDepth n : Int) →
      getTreeSymbolForPos n pos (getDepth n) =
        (if isLastNodeP n then Glyph.terminator else Glyph.starter)) ∧
    (pos < (getDepth n : Int) →
      getTreeSymbolForPos n pos (getDepth n) ≠ Glyph.padding →
      getTreeSymbolForPos n pos (getDepth n) = Glyph.connector) := by
  by_cases hpd : pos = (getDepth n : Int)
  · have hbeq : (pos == (getDepth n : Int)) = true := beq_iff_eq.mpr hpd
    have hpad : hasPaddingAtPos (some n) pos (getDepth n) = false := by
      rw [hasPaddingAtPos_some, if_neg (by omega), if_pos hbeq]
    have hsym : getTreeSymbolForPos n pos (getDepth n) =
        (if isLastNodeP n then Glyph.terminator else Glyph.starter) := by
      unfold getTreeSymbolForPos
      rw [hpad, if_neg (by simp), if_neg (by omega)]
    refine ⟨?_, fun _ => hsym, fun hlt => absurd hpd (by omega)⟩
    constructor
    · intro hp
      rw [hsym] at hp
      split at hp <;> exact Glyph.noConfusion hp
    · rintro ⟨hne, _⟩
      exact absurd hpd hne
  · have hlt : pos < (getDepth n : Int) := lt_of_le_of_ne hd hpd
    have hbeq : (pos == (getDepth n : Int)) = false := beq_eq_false_iff_ne.mpr hpd
    have hpad : hasPaddingAtPos (some n) pos (getDepth n) =
        paddingWalk n (((getDepth n : Int) - pos).toNat) := by
      rw [hasPaddingAtPos_some, if_neg (by omega), if_neg (by simp [hbeq])]
    refine ⟨?_, fun he => absurd he hpd, ?_⟩
    · constructor
      · intro hp
        refine ⟨hpd, ?_⟩
        unfold getTreeSymbolForPos at hp
        rw [hpad] at hp
        by_cases hw : paddingWalk n (((getDepth n : Int) - pos).toNat) = true
        · exact (paddingWalk_spec n _).mp hw
        · rw [if_neg (by simp [hw]), if_pos hlt] at hp
          exact Glyph.noConfusion hp
      · rintro ⟨_, hcond⟩
        have hw := (paddingWalk_spec n (((getDepth n : Int) - pos).toNat)).mpr hcond
        unfold getTreeSymbolForPos
        rw [hpad, hw, if_pos rfl]
    · intro _ hnp
      unfold getTreeSymbolForPos at hnp ⊢
      rw [hpad] at hnp ⊢
      by_cases hw : paddingWalk n (((getDepth n : Int) - pos).toNat) = true
      · rw [hw, if_pos rfl] at hnp
        exact absurd rfl hnp
      · rw [if_neg (by simp [hw]), if_pos hlt]

/-- Witness for C8: a depth-1 node whose parent is a `LastChild` gets
padding in column 0 (the parent's subtree needs no continuation line). -/
theorem treeSymbol_spec_witness :
    getTreeSymbolForPos (PNode.mk 0 (some (PNode.mk 32 none))) 0
      (getDepth (PNode.mk 0 (some (PNode.mk 32 none)))) = Glyph.padding :=
  (treeSymbol_spec (PNode.mk 0 (some (PNode.mk 32 none))) 0 (by decide) (by decide)).1.mpr
    ⟨by decide, Or.inr ⟨PNode.mk 32 none, rfl, rfl⟩⟩

/-- C4: the selection invariant is broken by the code. On the two-leaf tree
`[a, b]`, after `Focus; Blur; Focus; MoveDown(1)` both nodes carry
`Selected` (count 2): `Blur` clears the flag with XOR, and the next
`setCursor` "deselects" the old current node with XOR again — re-setting
the flag that blur had cleared — before selecting the new node. The
source's own comment says the XOR "should actually be AND with
!NodeSelected", so the intent (at most one selected) is clear and the code
is the bug. The first conjunct checks the state is as claimed right after
blur (zero selected); the second shows the violation. -/
theorem selected_count_two_after_blur_focus_move :
    selCountL ((New [GNode.mk 0 [], GNode.mk 0 []]).Focus.Blur).store = 0 ∧
      selCountL
        (((New [GNode.mk 0 [], GNode.mk 0 []]).Focus.Blur.Focus.MoveDown 1).store) = 2 := by
  constructor
  · rfl
  · rfl

/-- Counterexample for C3 as stated: on the component built from the
single collapsible expanded root with one child, the visible order has
length 2; after `ToggleExpand` (collapse) it has length 1 — a change of 1 —
but `countNodesBelow` of the toggled node (the cursor node, path `[0]`)
is 0, so the visible count does not change by `countBelow(node)`. -/
theorem toggleExpand_countBelow_counterexample :
    (flatten (New [GNode.mk 4 [GNode.mk 0 []]]).store).length = 2 ∧
      (flatten ((New [GNode.mk 4 [GNode.mk 0 []]]).ToggleExpand).store).length = 1 ∧
      ((getForest (New [GNode.mk 4 [GNode.mk 0 []]]).store [0]).map countNodesBelow) =
        some 0 := by
  refine ⟨rfl, rfl, rfl⟩

/-- C10: while the model is not focused, `Update` returns the model
unchanged — cursor, node states and viewport identical — and issues no
command: navigation keys, the expand toggle and resize notifications all
have no effect until focus. -/
theorem update_unfocused_noop (m : Model) (msg : Msg) (h : m.focus = false) :
    m.Update msg = (m, none) := by
  unfold Model.Update
  rw [h]
  rfl

/-- Witness for C10: a freshly constructed model is unfocused, and a
line-down key message leaves it untouched with no command. -/
theorem update_unfocused_noop_witness :
    (New [GNode.mk 0 []]).focus = false ∧
      (New [GNode.mk 0 []]).Update (Msg.keyMsg KeyAction.lineDown) =
        (New [GNode.mk 0 []], none) :=
  ⟨rfl, update_unfocused_noop (New [GNode.mk 0 []]) (Msg.keyMsg KeyAction.lineDown) rfl⟩

theorem isHidden_testBit' (n : GNode) : isHidden n = n.state.testBit 4 :=
  stateIs_two_pow n.state 4

theorem isExpanded_testBit' (n : GNode) : isExpanded n = !n.state.testBit 3 := by
  unfold isExpanded
  rw [show stateIs n.state 8 = n.state.testBit 3 from stateIs_two_pow n.state 3]

theorem isCollapsible_testBit' (n : GNode) : isCollapsible n = n.state.testBit 2 :=
  stateIs_two_pow n.state 2

theorem flattenOne_length_formula (x : GNode) :
    (flattenOne x).length =
      if isHidden x then 0
      else 1 + (if isCollapsible x && isExpanded x then (flatten x.children).length else 0) := by
  obtain ⟨s, cs⟩ := x
  by_cases hh : isHidden (GNode.mk s cs) = true
  · rw [flattenOne_hidden s cs hh, if_pos hh]
    rfl
  · rw [if_neg hh]
    by_cases hc : (isCollapsible (GNode.mk s cs) && isExpanded (GNode.mk s cs)) = true
    · rw [flattenOne_expanded s cs (by simpa using hh) hc, if_pos hc]
      simp [GNode.children]
      omega
    · rw [flattenOne_single s cs (by simpa using hh) (by simpa using hc), if_neg hc]
      simp [GNode.children]

theorem flattenOne_len_eq_of (f : GNode → GNode)
    (hch : ∀ x, (f x).children = x.children)
    (h2 : ∀ x, (f x).state.testBit 2 = x.state.testBit 2)
    (h3 : ∀ x, (f x).state.testBit 3 = x.state.testBit 3)
    (h4 : ∀ x, (f x).state.testBit 4 = x.state.testBit 4)
    (x : GNode) : (flattenOne (f x)).length = (flattenOne x).length := by
  rw [flattenOne_length_formula, flattenOne_length_formula]
  rw [show isHidden (f x) = isHidden x by
    rw [isHidden_testBit', isHidden_testBit', h4]]
  rw [show isCollapsible (f x) = isCollapsible x by
    rw [isCollapsible_testBit', isCollapsible_testBit', h2]]
  rw [show isExpanded (f x) = isExpanded x by
    rw [isExpanded_testBit', isExpanded_testBit', h3]]
  rw [hch]

theorem flattenOne_len_mono_of (f : GNode → GNode)
    (hch : ∀ x, (f x).children = x.children)
    (h2 : ∀ x, x.state.testBit 2 = true → (f x).state.testBit 2 = true)
    (h3 : ∀ x, (f x).state.testBit 3 = x.state.testBit 3)
    (h4 : ∀ x, (f x).state.testBit 4 = x.state.testBit 4)
    (x : GNode) : (flattenOne x).length ≤ (flattenOne (f x)).length := by
  rw [flattenOne_length_formula, flattenOne_length_formula]
  rw [show isHidden (f x) = isHidden x by
    rw [isHidden_testBit', isHidden_testBit', h4]]
  rw [show isExpanded (f x) = isExpanded x by
    rw [isExpanded_testBit', isExpanded_testBit', h3]]
  rw [hch]
  by_cases hh : isHidden x = true
  · rw [if_pos hh, if_pos hh]
  · rw [if_neg hh, if_neg hh]
    by_cases hcx : (isCollapsible x && isExpanded x) = true
    · have hcf : (isCollapsible (f x) && isExpanded x) = true := by
        have hp := by simpa using hcx
        rw [isCollapsible_testBit', h2 x (by rw [← isCollapsible_testBit']; exact hp.1)]
        simp [hp.2]
      rw [if_pos hcx, if_pos hcf]
    · rw [if_neg hcx]
      by_cases hcf : (isCollapsible (f x) && isExpanded x) = true
      · rw [if_pos hcf]; omega
      · rw [if_neg hcf]

mutual
theorem flattenOne_modifyTree_eq (f : GNode → GNode)
    (hch : ∀ x, (f x).children = x.children)
    (h2 : ∀ x, (f x).state.testBit 2 = x.state.testBit 2)
    (h3 : ∀ x, (f x).state.testBit 3 = x.state.testBit 3)
    (h4 : ∀ x, (f x).state.testBit 4 = x.state.testBit 4) :
    ∀ (p : List Nat) (x : GNode),
      (flattenOne (modifyTree f p x)).length = (flattenOne x).length
  | [], x => by
    simp only [modifyTree]
    exact flattenOne_len_eq_of f hch h2 h3 h4 x
  | k :: q, .mk s cs => by
    simp only [modifyTree]
    rw [flattenOne_length_formula, flattenOne_length_formula]
    rw [show isHidden (GNode.mk s (modifyList f k q cs)) = isHidden (GNode.mk s cs) by
      rw [isHidden_testBit, isHidden_testBit]]
    rw [show isCollapsible (GNode.mk s (modifyList f k q cs)) =
        isCollapsible (GNode.mk s cs) by rw [isCollapsible_testBit, isCollapsible_testBit]]
    rw [show isExpanded (GNode.mk s (modifyList f k q cs)) =
        isExpanded (GNode.mk s cs) by rw [isExpanded_testBit, isExpanded_testBit]]
    rw [show (GNode.mk s (modifyList f k q cs)).children = modifyList f k q cs from rfl,
      show (GNode.mk s cs).children = cs from rfl]
    rw [flatten_modifyList_eq f hch h2 h3 h4 k q cs]

theorem flatten_modifyList_eq (f : GNode → GNode)
    (hch : ∀ x, (f x).children = x.children)
    (h2 : ∀ x, (f x).state.testBit 2 = x.state.testBit 2)
    (h3 : ∀ x, (f x).state.testBit 3 = x.state.testBit 3)
    (h4 : ∀ x, (f x).state.testBit 4 = x.state.testBit 4) :
    ∀ (k : Nat) (q : List Nat) (cs : List GNode),
      (flatten (modifyList f k q cs)).length = (flatten cs).length
  | k, q, [] => by cases k <;> rfl
  | 0, q, c :: rest => by
    simp only [modifyList, flatten, List.length_append]
    rw [flattenOne_modifyTree_eq f hch h2 h3 h4 q c]
  | k + 1, q, c :: rest => by
    simp only [modifyList, flatten, List.length_append]
    rw [flatten_modifyList_eq f hch h2 h3 h4 k q rest]
end

theorem flatten_modifyForest_eq (f : GNode → GNode)
    (hch : ∀ x, (f x).children = x.children)
    (h2 : ∀ x, (f x).state.testBit 2 = x.state.testBit 2)
    (h3 : ∀ x, (f x).state.testBit 3 = x.state.testBit 3)
    (h4 : ∀ x, (f x).state.testBit 4 = x.state.testBit 4)
    (p : List Nat) (ns : List GNode) :
    (flatten (modifyForest f p ns)).length = (flatten ns).length := by
  cases p with
  | nil => rfl
  | cons k q => exact flatten_modifyList_eq f hch h2 h3 h4 k q ns

mutual
theorem flattenOne_modifyTree_mono (f : GNode → GNode)
    (hch : ∀ x, (f x).children = x.children)
    (h2 : ∀ x, x.state.testBit 2 = true → (f x).state.testBit 2 = true)
    (h3 : ∀ x, (f x).state.testBit 3 = x.state.testBit 3)
    (h4 : ∀ x, (f x).state.testBit 4 = x.state.testBit 4) :
    ∀ (p : List Nat) (x : GNode),
      (flattenOne x).length ≤ (flattenOne (modifyTree f p x)).length
  | [], x => by
    simp only [modifyTree]
    exact flattenOne_len_mono_of f hch h2 h3 h4 x
  | k :: q, .mk s cs => by
    simp only [modifyTree]
    rw [flattenOne_length_formula, flattenOne_length_formula]
    rw [show isHidden (GNode.mk s (modifyList f k q cs)) = isHidden (GNode.mk s cs) by
      rw [isHidden_testBit, isHidden_testBit]]
    rw [show isCollapsible (GNode.mk s (modifyList f k q cs)) =
        isCollapsible (GNode.mk s cs) by rw [isCollapsible_testBit, isCollapsible_testBit]]
    rw [show isExpanded (GNode.mk s (modifyList f k q cs)) =
        isExpanded (GNode.mk s cs) by rw [isExpanded_testBit, isExpanded_testBit]]
    rw [show (GNode.mk s (modifyList f k q cs)).children = modifyList f k q cs from rfl,
      show (GNode.mk s cs).children = cs from rfl]
    by_cases hh : isHidden (GNode.mk s cs) = true
    · rw [if_pos hh, if_pos hh]
    · rw [if_neg hh, if_neg hh]
      by_cases hce : (isCollapsible (GNode.mk s cs) && isExpanded (GNode.mk s cs)) = true
      · rw [if_pos hce, if_pos hce]
        have := flatten_modifyList_mono f hch h2 h3 h4 k q cs
        omega
      · rw [if_neg hce, if_neg hce]

theorem flatten_modifyList_mono (f : GNode → GNode)
    (hch : ∀ x, (f x).children = x.children)
    (h2 : ∀ x, x.state.testBit 2 = true → (f x).state.testBit 2 = true)
    (h3 : ∀ x, (f x).state.testBit 3 = x.state.testBit 3)
    (h4 : ∀ x, (f x).state.testBit 4 = x.state.testBit 4) :
    ∀ (k : Nat) (q : List Nat) (cs : List GNode),
      (flatten cs).length ≤ (flatten (modifyList f k q cs)).length
  | k, q, [] => by cases k <;> simp [modifyList]
  | 0, q, c :: rest => by
    simp only [modifyList, flatten, List.length_append]
    have := flattenOne_modifyTree_mono f hch h2 h3 h4 q c
    omega
  | k + 1, q, c :: rest => by
    simp only [modifyList, flatten, List.length_append]
    have := flatten_modifyList_mono f hch h2 h3 h4 k q rest
    omega
end

theorem flatten_modifyForest_mono (f : GNode → GNode)
    (hch : ∀ x, (f x).children = x.children)
    (h2 : ∀ x, x.state.testBit 2 = true → (f x).state.testBit 2 = true)
    (h3 : ∀ x, (f x).state.testBit 3 = x.state.testBit 3)
    (h4 : ∀ x, (f x).state.testBit 4 = x.state.testBit 4)
    (p : List Nat) (ns : List GNode) :
    (flatten ns).length ≤ (flatten (modifyForest f p ns)).length := by
  cases p with
  | nil => exact Nat.le_refl _
  | cons k q => exact flatten_modifyList_mono f hch h2 h3 h4 k q ns

mutual
theorem getNode_modifyTree_hidden (f : GNode → GNode)
    (hch : ∀ x, (f x).children = x.children)
    (h4 : ∀ x, (f x).state.testBit 4 = x.state.testBit 4) :
    ∀ (p q : List Nat) (x : GNode),
      (getNode (modifyTree f p x) q).map (fun y => y.state.testBit 4) =
        (getNode x q).map (fun y => y.state.testBit 4)
  | [], [], x => by
    simp only [modifyTree, getNode, Option.map_some']
    rw [h4 x]
  | [], k :: q', x => by
    simp only [modifyTree]
    cases hfx : f x with
    | mk fs fcs =>
      obtain ⟨s, cs⟩ := x
      have hc : fcs = cs := by
        have := hch (GNode.mk s cs)
        rw [hfx] at this
        simpa [GNode.children] using this
      subst hc
      simp only [getNode]
  | k :: p', [], x => by
    obtain ⟨s, cs⟩ := x
    simp only [modifyTree, getNode, Option.map_some']
    rfl
  | k :: p', k' :: q', x => by
    obtain ⟨s, cs⟩ := x
    simp only [modifyTree, getNode]
    exact getList_modifyList_hidden f hch h4 k p' k' q' cs

theorem getList_modifyList_hidden (f : GNode → GNode)
    (hch : ∀ x, (f x).children = x.children)
    (h4 : ∀ x, (f x).state.testBit 4 = x.state.testBit 4) :
    ∀ (k : Nat) (p : List Nat) (k' : Nat) (q : List Nat) (cs : List GNode),
      (getList (modifyList f k p cs) k' q).map (fun y => y.state.testBit 4) =
        (getList cs k' q).map (fun y => y.state.testBit 4)
  | k, p, k', q, [] => by cases k <;> rfl
  | 0, p, 0, q, c :: rest => by
    simp only [modifyList, getList]
    exact getNode_modifyTree_hidden f hch h4 p q c
  | 0, p, k' + 1, q, c :: rest => by
    simp only [modifyList, getList]
  | k + 1, p, 0, q, c :: rest => by
    simp only [modifyList, getList]
  | k + 1, p, k' + 1, q, c :: rest => by
    simp only [modifyList, getList]
    exact getList_modifyList_hidden f hch h4 k p k' q rest
end

theorem getForest_modifyForest_hidden (f : GNode → GNode)
    (hch : ∀ x, (f x).children = x.children)
    (h4 : ∀ x, (f x).state.testBit 4 = x.state.testBit 4)
    (p q : List Nat) (ns : List GNode) :
    (getForest (modifyForest f p ns) q).map (fun y => y.state.testBit 4) =
      (getForest ns q).map (fun y => y.state.testBit 4) := by
  cases p with
  | nil => rfl
  | cons k p' =>
    cases q with
    | nil => rfl
    | cons k' q' => exact getList_modifyList_hidden f hch h4 k p' k' q' ns

theorem flattenPaths_not_hidden (ns : List GNode) :
    ∀ p ∈ flattenPaths ns,
      (getForest ns p).map (fun y => y.state.testBit 4) = some false := by
  intro p hp
  obtain ⟨t, ht⟩ := List.get?_of_mem hp
  have hmap := congrArg (fun l => l.get? t) (flattenPaths_map ns)
  simp only [List.get?_map, ht, Option.map_some'] at hmap
  cases hx : (flatten ns).get? t with
  | none => rw [hx] at hmap; simp at hmap
  | some x =>
    rw [hx] at hmap
    simp only [Option.map_some', Option.some.injEq] at hmap
    have hxmem : x ∈ flatten ns := List.get?_mem hx
    have hxh := flatten_not_hidden ns x hxmem
    rw [isHidden_testBit'] at hxh
    rw [hmap, Option.map_some', hxh]

theorem hintsFor_or_preserves (s : Nat) (i len : Nat) (n : GNode) :
    (s ||| hintsFor i len n).testBit 3 = s.testBit 3 ∧
      (s ||| hintsFor i len n).testBit 4 = s.testBit 4 ∧
      (s.testBit 2 = true → (s ||| hintsFor i len n).testBit 2 = true) := by
  obtain ⟨-, hb3, hb4⟩ := hintsFor_testBit i len n
  refine ⟨testBit_or_const s _ 3 hb3, testBit_or_const s _ 4 hb4, ?_⟩
  intro hs
  rw [Nat.testBit_lor, hs, Bool.true_or]

theorem renderPassGo_count (len : Nat) : ∀ (paths : List (List Nat)) (store : List GNode)
    (i cnt : Nat),
    (∀ p ∈ paths, (getForest store p).map (fun y => y.state.testBit 4) = some false) →
    (renderPassGo len store paths i cnt).2 = cnt + paths.length ∧
      (flatten store).length ≤ (flatten (renderPassGo len store paths i cnt).1).length := by
  intro paths
  induction paths with
  | nil =>
    intro store i cnt _
    simp [renderPassGo]
  | cons p rest ih =>
    intro store i cnt hvis
    have hp := hvis p (List.mem_cons_self p rest)
    cases hg : getForest store p with
    | none => rw [hg] at hp; simp at hp
    | some n =>
      rw [hg] at hp
      simp only [Option.map_some', Option.some.injEq] at hp
      have hnh : isHidden n = false := by rw [isHidden_testBit']; exact hp
      simp only [renderPassGo, hg, hnh, Bool.false_eq_true, if_false]
      set store' := modifyForest (orState (hintsFor i len n)) p store with hstore'
      have hch : ∀ x, (orState (hintsFor i len n) x).children = x.children := fun x => rfl
      have hb4 : ∀ x, (orState (hintsFor i len n) x).state.testBit 4 = x.state.testBit 4 :=
        fun x => (hintsFor_or_preserves x.state i len n).2.1
      have hb3 : ∀ x, (orState (hintsFor i len n) x).state.testBit 3 = x.state.testBit 3 :=
        fun x => (hintsFor_or_preserves x.state i len n).1
      have hb2 : ∀ x, x.state.testBit 2 = true →
          (orState (hintsFor i len n) x).state.testBit 2 = true :=
        fun x => (hintsFor_or_preserves x.state i len n).2.2
      have hvis' : ∀ q ∈ rest,
          (getForest store' q).map (fun y => y.state.testBit 4) = some false := by
        intro q hq
        rw [hstore', getForest_modifyForest_hidden _ hch hb4 p q store]
        exact hvis q (List.mem_cons_of_mem p hq)
      obtain ⟨hcnt, hle⟩ := ih store' (i + 1) (cnt + 1) hvis'
      refine ⟨by rw [hcnt]; simp [List.length_cons]; omega, ?_⟩
      calc (flatten store).length
          ≤ (flatten store').length :=
            flatten_modifyForest_mono _ hch hb2 hb3 hb4 p store
        _ ≤ _ := hle

theorem xorState_flatten_eq (b : Nat) (hb2 : b.testBit 2 = false) (hb3 : b.testBit 3 = false)
    (hb4 : b.testBit 4 = false) (p : List Nat) (ns : List GNode) :
    (flatten (modifyForest (xorState b) p ns)).length = (flatten ns).length :=
  flatten_modifyForest_eq (xorState b) (fun _ => rfl)
    (fun x => testBit_xor_const x.state b 2 hb2)
    (fun x => testBit_xor_const x.state b 3 hb3)
    (fun x => testBit_xor_const x.state b 4 hb4) p ns

theorem orState_flatten_eq (b : Nat) (hb2 : b.testBit 2 = false) (hb3 : b.testBit 3 = false)
    (hb4 : b.testBit 4 = false) (p : List Nat) (ns : List GNode) :
    (flatten (modifyForest (orState b) p ns)).length = (flatten ns).length :=
  flatten_modifyForest_eq (orState b) (fun _ => rfl)
    (fun x => testBit_or_const x.state b 2 hb2)
    (fun x => testBit_or_const x.state b 3 hb3)
    (fun x => testBit_or_const x.state b 4 hb4) p ns

theorem New_cons_eq (n : GNode) (rest : List GNode) :
    New (n :: rest) =
      { store := (renderPassGo (flattenPaths (modifyForest (orState 2) [0] (n :: rest))).length
          (modifyForest (orState 2) [0] (n :: rest))
          (flattenPaths (modifyForest (orState 2) [0] (n :: rest))) 0 0).1,
        nodes := flattenPaths (modifyForest (orState 2) [0] (n :: rest)),
        view := { width := 0, height := 0, yoffset := 0,
                  lineCount :=
                    (if (renderPassGo
                          (flattenPaths (modifyForest (orState 2) [0] (n :: rest))).length
                          (modifyForest (orState 2) [0] (n :: rest))
                          (flattenPaths (modifyForest (orState 2) [0] (n :: rest))) 0 0).2 == 0
                      then 1
                      else (renderPassGo
                          (flattenPaths (modifyForest (orState 2) [0] (n :: rest))).length
                          (modifyForest (orState 2) [0] (n :: rest))
                          (flattenPaths (modifyForest (orState 2) [0] (n :: rest))) 0 0).2) },
        focus := false, cursor := 0 } := rfl

theorem New_props (ns : List GNode) (hne : flatten ns ≠ []) :
    (New ns).cursor = 0 ∧ (New ns).focus = false ∧
      (New ns).view.lineCount = (flatten ns).length ∧
      (New ns).view.lineCount ≤ (flatten (New ns).store).length := by
  cases ns with
  | nil => exact absurd rfl hne
  | cons n rest =>
    have hb2 : (2 : Nat).testBit 2 = false := by decide
    have hb3 : (2 : Nat).testBit 3 = false := by decide
    have hb4 : (2 : Nat).testBit 4 = false := by decide
    have hlen0 : (flatten (modifyForest (orState 2) [0] (n :: rest))).length =
        (flatten (n :: rest)).length :=
      orState_flatten_eq 2 hb2 hb3 hb4 [0] (n :: rest)
    have hpathlen : (flattenPaths (modifyForest (orState 2) [0] (n :: rest))).length =
        (flatten (modifyForest (orState 2) [0] (n :: rest))).length := by
      have := congrArg List.length (flattenPaths_map (modifyForest (orState 2) [0] (n :: rest)))
      simpa using this
    have hge1 : 1 ≤ (flatten (n :: rest)).length := by
      cases hfl : flatten (n :: rest) with
      | nil => exact absurd hfl hne
      | cons a l => simp [hfl]
    obtain ⟨hcnt, hmono⟩ := renderPassGo_count
      (flattenPaths (modifyForest (orState 2) [0] (n :: rest))).length
      (flattenPaths (modifyForest (orState 2) [0] (n :: rest)))
      (modifyForest (orState 2) [0] (n :: rest)) 0 0
      (flattenPaths_not_hidden (modifyForest (orState 2) [0] (n :: rest)))
    have hrows : (renderPassGo
        (flattenPaths (modifyForest (orState 2) [0] (n :: rest))).length
        (modifyForest (orState 2) [0] (n :: rest))
        (flattenPaths (modifyForest (orState 2) [0] (n :: rest))) 0 0).2 =
        (flatten (n :: rest)).length := by
      rw [hcnt, Nat.zero_add, hpathlen, hlen0]
    have hcond : ((flatten (n :: rest)).length == 0) = false :=
      beq_eq_false_iff_ne.mpr (by omega)
    rw [New_cons_eq]
    refine ⟨rfl, rfl, ?_, ?_⟩
    · dsimp only
      rw [hrows]
      rw [if_neg (by simp [hcond])]
    · dsimp only
      rw [hrows]
      rw [if_neg (by simp [hcond])]
      calc (flatten (n :: rest)).length
          = (flatten (modifyForest (orState 2) [0] (n :: rest))).length := hlen0.symm
        _ ≤ _ := hmono

theorem setCursor_props (m : Model) (newPos : Int) :
    (m.setCursor newPos).view = m.view ∧ (m.setCursor newPos).nodes = m.nodes ∧
      (m.setCursor newPos).cursor = newPos ∧
      (flatten (m.setCursor newPos).store).length = (flatten m.store).length := by
  have hb2 : (2 : Nat).testBit 2 = false := by decide
  have hb3 : (2 : Nat).testBit 3 = false := by decide
  have hb4 : (2 : Nat).testBit 4 = false := by decide
  unfold Model.setCursor
  by_cases h : (newPos == m.cursor) = true
  · rw [if_pos h]
    exact ⟨rfl, rfl, (eq_of_beq h).symm, rfl⟩
  · rw [if_neg h]
    split <;> dsimp only <;> split
    · refine ⟨rfl, rfl, rfl, ?_⟩
      rw [orState_flatten_eq 2 hb2 hb3 hb4, xorState_flatten_eq 2 hb2 hb3 hb4]
    · exact ⟨rfl, rfl, rfl, xorState_flatten_eq 2 hb2 hb3 hb4 _ _⟩
    · exact ⟨rfl, rfl, rfl, orState_flatten_eq 2 hb2 hb3 hb4 _ _⟩
    · exact ⟨rfl, rfl, rfl, rfl⟩

theorem MoveUp_props (m : Model) (n : Int) (hn : 0 ≤ n) (h0 : 0 ≤ m.cursor) :
    (m.MoveUp n).view.lineCount = m.view.lineCount ∧
      0 ≤ (m.MoveUp n).cursor ∧ (m.MoveUp n).cursor ≤ m.cursor ∧
      (flatten (m.MoveUp n).store).length = (flatten m.store).length := by
  unfold Model.MoveUp
  by_cases h : (m.cursor == 0) = true
  · rw [if_pos h]
    exact ⟨rfl, h0, le_refl _, rfl⟩
  · rw [if_neg h]
    dsimp only
    split
    · obtain ⟨hv, -, hc, hf⟩ := setCursor_props
        { m with view := m.view.lineUp (max (m.cursor - n) 0 - m.cursor) }
        (max (m.cursor - n) 0)
      refine ⟨by rw [hv]; rfl, ?_, ?_, hf⟩
      · rw [hc]
        exact le_max_right _ 0
      · rw [hc]
        exact max_le (by omega) h0
    · obtain ⟨hv, -, hc, hf⟩ := setCursor_props m (max (m.cursor - n) 0)
      refine ⟨by rw [hv], ?_, ?_, hf⟩
      · rw [hc]
        exact le_max_right _ 0
      · rw [hc]
        exact max_le (by omega) h0

theorem MoveDown_props (m : Model) (n : Int) (hn : 0 ≤ n) (h0 : 0 ≤ m.cursor)
    (hlt : m.cursor < (m.view.lineCount : Int)) :
    (m.MoveDown n).view.lineCount = m.view.lineCount ∧
      0 ≤ (m.MoveDown n).cursor ∧
      (m.MoveDown n).cursor < (m.view.lineCount : Int) ∧
      (flatten (m.MoveDown n).store).length = (flatten m.store).length := by
  have hTL : m.view.totalLineCount = (m.view.lineCount : Int) := rfl
  unfold Model.MoveDown
  dsimp only
  by_cases h : (m.cursor == m.view.totalLineCount - 1) = true
  · rw [if_pos h]
    exact ⟨rfl, h0, hlt, rfl⟩
  · rw [if_neg h]
    have hmin0 : 0 ≤ min (m.cursor + n) (m.view.totalLineCount - 1) :=
      le_min (by omega) (by rw [hTL]; omega)
    have hminlt : min (m.cursor + n) (m.view.totalLineCount - 1) <
        (m.view.lineCount : Int) := by
      have := min_le_right (m.cursor + n) (m.view.totalLineCount - 1)
      rw [hTL] at this
      omega
    split
    · obtain ⟨hv, -, hc, hf⟩ := setCursor_props
        { m with view := m.view.lineDown
                          (min (m.cursor + n) (m.view.totalLineCount - 1) - m.cursor) }
        (min (m.cursor + n) (m.view.totalLineCount - 1))
      refine ⟨by rw [hv]; rfl, ?_, ?_, hf⟩
      · rw [hc]; exact hmin0
      · rw [hc]; exact hminlt
    · obtain ⟨hv, -, hc, hf⟩ := setCursor_props m
        (min (m.cursor + n) (m.view.totalLineCount - 1))
      refine ⟨by rw [hv], ?_, ?_, hf⟩
      · rw [hc]; exact hmin0
      · rw [hc]; exact hminlt

theorem applyMoves_inv : ∀ (ops : List MoveOp) (m : Model),
    (∀ op ∈ ops, 0 ≤ op.amount) →
    0 ≤ m.cursor → m.cursor < (m.view.lineCount : Int) →
    m.view.lineCount ≤ (flatten m.store).length →
    0 ≤ (applyMoves m ops).cursor ∧
      (applyMoves m ops).cursor < ((applyMoves m ops).view.lineCount : Int) ∧
      (applyMoves m ops).view.lineCount ≤ (flatten (applyMoves m ops).store).length
  | [], m => by
    intro _ h0 hlt hle
    exact ⟨h0, hlt, hle⟩
  | .up n :: rest, m => by
    intro hops h0 hlt hle
    have hn : 0 ≤ n := hops (.up n) (List.mem_cons_self _ _)
    obtain ⟨hL, hc0, hcle, hfl⟩ := MoveUp_props m n hn h0
    simp only [applyMoves]
    exact applyMoves_inv rest (m.MoveUp n)
      (fun op hop => hops op (List.mem_cons_of_mem _ hop))
      hc0 (by rw [hL]; omega) (by rw [hL, hfl]; exact hle)
  | .down n :: rest, m => by
    intro hops h0 hlt hle
    have hn : 0 ≤ n := hops (.down n) (List.mem_cons_self _ _)
    obtain ⟨hL, hc0, hclt, hfl⟩ := MoveDown_props m n hn h0 hlt
    simp only [applyMoves]
    exact applyMoves_inv rest (m.MoveDown n)
      (fun op hop => hops op (List.mem_cons_of_mem _ hop))
      hc0 (by rw [hL]; omega) (by rw [hL, hfl]; exact hle)

/-- C7: starting from construction on a tree with at least one visible
node, every sequence of `MoveUp(n)` / `MoveDown(n)` calls with `n ≥ 0`
keeps the cursor within `[0, visibleCount - 1]`, where `visibleCount` is
the length of the fully re-flattened visible flat order of the current
tree: a move past either end clamps to the boundary, so an out-of-range
cursor is never a resting state. (The claim's range presupposes a visible
node, hence the `flatten ns ≠ []` hypothesis; an all-hidden tree has an
empty range that even the initial cursor 0 could not satisfy.) -/
theorem cursor_stays_in_range (ns : List GNode) (ops : List MoveOp)
    (hops : ∀ op ∈ ops, 0 ≤ op.amount) (hne : flatten ns ≠ []) :
    0 ≤ (applyMoves (New ns) ops).cursor ∧
      (applyMoves (New ns) ops).cursor <
        ((flatten (applyMoves (New ns) ops).store).length : Int) := by
  obtain ⟨hc0, -, hlc, hle⟩ := New_props ns hne
  have hge1 : 1 ≤ (flatten ns).length := by
    cases hfl : flatten ns with
    | nil => exact absurd hfl hne
    | cons a l => simp [hfl]
  obtain ⟨h1, h2, h3⟩ := applyMoves_inv ops (New ns) hops
    (by rw [hc0]) (by rw [hc0, hlc]; omega) hle
  refine ⟨h1, ?_⟩
  omega

/-- Witness for C7: one visible node, a single `MoveDown(3)`; the cursor
stays at 0, inside `[0, 0]`. -/
theorem cursor_stays_in_range_witness :
    flatten [GNode.mk 0 []] ≠ [] ∧
      0 ≤ (applyMoves (New [GNode.mk 0 []]) [MoveOp.down 3]).cursor ∧
      (applyMoves (New [GNode.mk 0 []]) [MoveOp.down 3]).cursor <
        ((flatten (applyMoves (New [GNode.mk 0 []]) [MoveOp.down 3]).store).length : Int) :=
  ⟨fun hcon => List.noConfusion hcon,
    cursor_stays_in_range [GNode.mk 0 []] [MoveOp.down 3]
      (by
        intro op hop
        rcases List.mem_singleton.mp hop with rfl
        decide)
      (fun hcon => List.noConfusion hcon)⟩
